import Mathlib

/-!
Verification of the chunked density-matrix evolution engine
(`src/simulators/density_matrix/densitymatrix_state.hpp`).

The C++ `State` class mutates a vectorized density-matrix buffer (`qreg_`)
through a fixed set of buffer primitives and emits classical results.  We
embed each `State` method as a pure function that returns the sequence of
buffer-primitive invocations it performs (`BufOp` below), or an error
(`SimError`) where the C++ throws.  Numeric values computed with `double`
in the source are represented symbolically (`CVal`): the claims under
study concern control flow, indexing and payload structure, not floating
point rounding.  Buffer primitives and helpers living outside the source
file (`QV::indexes`, `superop_qubits`, `Chunk::*`, `Utils::*`) are
modelled from the specification and marked as such.
-/

namespace DMV

deriving instance DecidableEq for Except

/-- Complex scalar values appearing in operator payloads.  Values the C++
code computes with `double` arithmetic are kept symbolic: `invSqrt p`
stands for `1. / std::sqrt(p)`, `expI c` for `std::exp(i * c)`, `conjC`
for complex conjugation, `neg`/`half`/`mulC` for negation, halving and
multiplication of the argument. -/
inductive CVal where
  | lit (re im : ℚ)
  | invSqrt (p : ℚ)
  | expI (c : CVal)
  | conjC (c : CVal)
  | neg (c : CVal)
  | half (c : CVal)
  | mulC (a b : CVal)
  deriving DecidableEq, Repr

/-- `std::real` of a payload scalar (used by the code to read angle
parameters out of `op.params`; parameters supplied by circuits are
`lit` literals). -/
def CVal.creal : CVal → ℚ
  | .lit re _ => re
  | _ => 0

/-- Real-valued angle arguments of `apply_gate_u3` (they mix `M_PI`
literals with `std::real(op.params[i])`). -/
inductive RVal where
  | rlit (q : ℚ)
  | pi
  | halfPi
  | creOf (c : CVal)
  deriving DecidableEq, Repr

/-- Dense matrices produced by the external `Linalg::VMatrix` generators,
kept as unevaluated descriptions (the generators live outside the source
file). -/
inductive VMat where
  | u3 (theta phi lam : RVal)
  | sx
  | sxdg
  | ecr
  | r (a b : CVal)
  | rx (a : CVal)
  | ry (a : CVal)
  | rxx (a : CVal)
  | ryy (a : CVal)
  | rzx (a : CVal)
  deriving DecidableEq, Repr

/-- Payload of `qreg_.apply_unitary_matrix`: either an external
`Linalg::VMatrix` generator result or an explicitly constructed
vectorized matrix (a `cvector_t`). -/
inductive MatSpec where
  | lin (m : VMat)
  | vec (v : List CVal)
  deriving DecidableEq, Repr

/-- An `AER::cmatrix_t`: a complex matrix stored column-major as a flat
list (`data.getD (c * rows + r)` is the `(r, c)` entry). -/
structure CMat where
  rows : ℕ
  cols : ℕ
  data : List CVal
  deriving DecidableEq, Repr

instance : Inhabited CMat := ⟨⟨0, 0, []⟩⟩

/-- Payload of `qreg_.apply_superop_matrix` (the conversions
`Utils::vectorize_matrix` / `Utils::kraus_superop` are external, so the
payload is kept as an unevaluated description of their input). -/
inductive SuperPayload where
  | vecOfMat (m : CMat)
  | krausOf (ms : List CMat)
  deriving DecidableEq, Repr

/-- Errors thrown by the embedded methods (`std::invalid_argument` in the
C++ source, distinguished by throw site). -/
inductive SimError where
  | unsupported_instruction (name : String)
  | unsupported_gate (name : String)
  | save_not_full_state (name : String)
  | invalid_params (msg : String)
  deriving DecidableEq, Repr

/-- One invocation of a buffer primitive (a method of `qreg_`), of the
classical-register collaborator, or of the result sink.  The embedded
`State` methods return the list of invocations they perform. -/
inductive BufOp where
  | diagUnitary (qubits : List ℕ) (diag : List CVal)
  | diagMatrix (qubits : List ℕ) (diag : List CVal)
  | unitary (qubits : List ℕ) (mat : MatSpec)
  | superopMat (qubits : List ℕ) (mat : SuperPayload)
  | pauliOp (qubits : List ℕ) (pauli : String) (coeff : CVal)
  | cnot (c t : ℕ)
  | cyGate (c t : ℕ)
  | cphase (c t : ℕ) (phase : CVal)
  | xGate (q : ℕ)
  | yGate (q : ℕ)
  | swapGate (a b : ℕ)
  | toffoli (a b c : ℕ)
  | mcx (qubits : List ℕ)
  | mcy (qubits : List ℕ)
  | mcphase (qubits : List ℕ) (phase : CVal)
  | resetOp (qubits : List ℕ)
  | initFromVector (v : List CVal)
  | initFromMatrix (m : CMat)
  | storeMeasure (outcome : List ℕ) (memory registers : List ℕ)
  | saveExpval
  | saveStateData (key : String) (moved : Bool)
  | saveDensmatData (key : String) (qubits : List ℕ) (lastOp : Bool)
  | saveProbsData (key : String) (ket : Bool)
  | saveAmpsSqData (key : String) (vals : List ℕ)
  | applyBfunc
  | applyRoerror
  deriving DecidableEq, Repr

/-- The operation kinds of `StateOpSet` (the `OpType` values this state
class declares support for). -/
inductive OpType where
  | gate | measure | reset | barrier | bfunc | qerror_loc | roerror
  | matrix | diagonal_matrix | kraus | superop | set_statevec | set_densmat
  | save_expval | save_expval_var | save_densmat | save_probs
  | save_probs_ket | save_amps_sq | save_state | jump | mark
  deriving DecidableEq, Repr

/-- `Operations::DataSubType` (save-data flavours). -/
inductive DataSubType where
  | single | c_single | list | c_list | accum | c_accum | average | c_average
  deriving DecidableEq, Repr

/-- An `Operations::Op` record (the fields this state class reads). -/
structure Op where
  otype : OpType
  name : String
  qubits : List ℕ
  params : List CVal
  int_params : List ℕ
  string_params : List String
  mats : List CMat
  memory : List ℕ
  registers : List ℕ
  save_type : DataSubType
  deriving DecidableEq, Repr

/-- Allowed gates enum of the source file. -/
inductive Gates where
  | u1 | u2 | u3 | r | rx | ry | rz | id | x | y | z | h | s | sdg
  | sx | sxdg | t | tdg | cx | cy | cz | swap | rxx | ryy | rzz | rzx
  | ccx | cp | pauli | ecr
  deriving DecidableEq, Repr

/-- The `gateset_` table mapping gate names to `Gates` members. -/
def gateset : String → Option Gates
  | "delay" => some .id
  | "id" => some .id
  | "x" => some .x
  | "y" => some .y
  | "z" => some .z
  | "s" => some .s
  | "sdg" => some .sdg
  | "h" => some .h
  | "t" => some .t
  | "tdg" => some .tdg
  | "x90" => some .sx
  | "sx" => some .sx
  | "sxdg" => some .sxdg
  | "r" => some .r
  | "rx" => some .rx
  | "ry" => some .ry
  | "rz" => some .rz
  | "p" => some .u1
  | "u1" => some .u1
  | "u2" => some .u2
  | "u3" => some .u3
  | "u" => some .u3
  | "U" => some .u3
  | "CX" => some .cx
  | "cx" => some .cx
  | "cy" => some .cy
  | "cz" => some .cz
  | "cp" => some .cp
  | "cu1" => some .cp
  | "swap" => some .swap
  | "rxx" => some .rxx
  | "ryy" => some .ryy
  | "rzz" => some .rzz
  | "rzx" => some .rzx
  | "ecr" => some .ecr
  | "ccx" => some .ccx
  | "pauli" => some .pauli
  | _ => none

/-- Chunk-related configuration of one simulation unit: the local qubit
count `qreg_.num_qubits()`, the total count `num_global_qubits_`, the
buffer's `support_global_indexing()` flag, and `qreg_.chunk_index()`. -/
structure ChunkCfg where
  nq : ℕ
  numGlobal : ℕ
  supportGI : Bool
  chunkIndex : ℕ
  deriving DecidableEq, Repr

/-- The guard `num_global_qubits_ > qreg_.num_qubits() &&
!qreg_.support_global_indexing()` that enables per-chunk handling. -/
def ChunkCfg.chunked (c : ChunkCfg) : Bool :=
  decide (c.nq < c.numGlobal) && !c.supportGI

/-- A complex number with rational parts: the value domain used for the
buffer contents in the semantic claims. -/
structure CQ where
  re : ℚ
  im : ℚ
  deriving DecidableEq, Repr

instance : Zero CQ := ⟨⟨0, 0⟩⟩
instance : Add CQ := ⟨fun a b => ⟨a.re + b.re, a.im + b.im⟩⟩

theorem CQ.add_def (a b : CQ) : a + b = ⟨a.re + b.re, a.im + b.im⟩ := rfl

theorem CQ.zero_def : (0 : CQ) = ⟨0, 0⟩ := rfl

instance : AddCommMonoid CQ where
  add_assoc a b c := by simp [CQ.add_def, add_assoc]
  zero_add a := by simp [CQ.add_def, CQ.zero_def]
  add_zero a := by simp [CQ.add_def, CQ.zero_def]
  add_comm a b := by simp [CQ.add_def]; constructor <;> ring
  nsmul := nsmulRec

/-- The state of one simulation unit: chunk configuration plus the
current contents of the vectorized density-matrix buffer (a length
`4 ^ cfg.nq` complex vector, total on `ℕ` for convenience). -/
structure DMState where
  cfg : ChunkCfg
  vec : ℕ → CQ

/-- The injected random-number source: `rand_int(probs)` draws an index
from a discrete distribution, `uniform i` is the `i`-th draw of
`rng.rand(0, 1)`. -/
structure RNG where
  randInt : List ℚ → ℕ
  uniform : ℕ → ℚ

/-! ### Externally defined helpers, modelled from the specification -/

/-- Modelled from the spec: `qreg_.superop_qubits(qubits)` of the
vectorized density-matrix buffer.  The buffer stores the matrix as a
`2 n`-qubit vector with `n` ket qubits followed by `n` bra qubits, so a
qubit subset lifts to its doubled (ket and bra) copy. -/
def superop_qubits (n : ℕ) (qubits : List ℕ) : List ℕ :=
  qubits ++ qubits.map (· + n)

/-- Modelled from the spec: `Chunk::get_inout_ctrl_qubits` splits gate
operands into those addressable inside this chunk (`index <
local_qubit_count`) and those addressing a global/chunk-selecting bit. -/
def get_inout_ctrl_qubits (op : Op) (nq : ℕ) : List ℕ × List ℕ :=
  (op.qubits.filter (fun q => decide (q < nq)),
   op.qubits.filter (fun q => decide (nq ≤ q)))

/-- Modelled from the spec: `Chunk::correct_gate_op_in_chunk` returns a
copy of the operation with qubit operands renumbered to the pure local
indices for in-chunk application. -/
def correct_gate_op_in_chunk (op : Op) (qubits_in : List ℕ) : Op :=
  { op with qubits := qubits_in }

/-- Index into a diagonal over `qubits` obtained by taking local qubits'
bits from `j` (in list order) and global qubits' bits from the chunk
index.  Helper for `block_diagonal_matrix`. -/
def blockIndex (chunkIdx nq : ℕ) : List ℕ → ℕ → ℕ
  | [], _ => 0
  | q :: qs, j =>
    if q < nq then (j % 2) + 2 * blockIndex chunkIdx nq qs (j / 2)
    else (if chunkIdx.testBit (q - nq) then 1 else 0) + 2 * blockIndex chunkIdx nq qs j

/-- Modelled from the spec: `Chunk::block_diagonal_matrix` restricts a
diagonal over a qubit set straddling the chunk boundary to this chunk:
qubit operands are filtered to the local ones and the diagonal entries
are selected by fixing every global qubit's bit to this chunk's position
in the global address space. -/
def block_diagonal_matrix (chunkIdx nq : ℕ) (qubits : List ℕ) (diag : List CVal) :
    List ℕ × List CVal :=
  let qubits_in := qubits.filter (fun q => decide (q < nq))
  if qubits_in.length = qubits.length then (qubits, diag)
  else (qubits_in,
    (List.range (2 ^ qubits_in.length)).map
      (fun j => diag.getD (blockIndex chunkIdx nq qubits j) (CVal.lit 0 0)))

/-- Modelled from the spec: `AER::Utils::tensor_product u v`, the
Kronecker product of two vectors with the first factor varying slowest
(`(u ⊗ v)[i * |v| + j] = u[i] * v[j]`). -/
def tensorProdCVal (u v : List CVal) : List CVal :=
  (u.map (fun x => v.map (fun y => CVal.mulC x y))).flatten

/-- `AER::Utils::conjugate` on a vector of scalars. -/
def conjVec (v : List CVal) : List CVal :=
  v.map CVal.conjC

/-- `AER::Utils::int2reg val base n`: the `n` least significant base-`base`
digits of `val`, least significant first. -/
def int2reg (val base n : ℕ) : List ℕ :=
  (List.range n).map (fun j => val / base ^ j % base)

/-- The outcome index over a qubit subset read off a basis-state index:
bit `t` of the result is bit `qubits[t]` of `i`. -/
def extractBits : List ℕ → ℕ → ℕ
  | [], _ => 0
  | q :: qs, i => (if i.testBit q then 1 else 0) + 2 * extractBits qs i

/-- Modelled from the spec: `qreg_.probabilities(qubits)`, the marginal
probability vector over a qubit subset, computed from the diagonal of the
stored density matrix (`vec (i * 2^n + i)` is the `(i, i)` entry of the
column-stacked buffer). -/
def probabilities (s : DMState) (qubits : List ℕ) : List ℚ :=
  (List.range (2 ^ qubits.length)).map (fun m =>
    (((List.range (2 ^ s.cfg.nq)).filter
        (fun i => decide (extractBits qubits i = m))).map
      (fun i => (s.vec (i * 2 ^ s.cfg.nq + i)).re)).sum)

/-- Modelled from the spec: `qreg_.trace()`, the trace of the stored
density matrix (sum of the diagonal of the column-stacked buffer). -/
def bufferTrace (s : DMState) : CQ :=
  ((List.range (2 ^ s.cfg.nq)).map (fun i => s.vec (i * 2 ^ s.cfg.nq + i))).sum

/-- The diagonal of the stored density matrix as a probability list. -/
def diagProbs (s : DMState) : List ℚ :=
  (List.range (2 ^ s.cfg.nq)).map (fun i => (s.vec (i * 2 ^ s.cfg.nq + i)).re)

/-- Inverse-transform sampling: the smallest index whose cumulative
probability exceeds `r` (last index as fallback). -/
def cdfSample (probs : List ℚ) (r : ℚ) : ℕ :=
  ((List.range probs.length).find?
    (fun m => decide (r < (probs.take (m + 1)).sum))).getD (probs.length - 1)

/-- Modelled from the spec: `qreg_.sample_measure(rnds)`, a pure query
drawing one basis index per supplied uniform deviate from the implicit
probability distribution on the buffer diagonal; it does not modify the
buffer. -/
def bufferSampleMeasure (s : DMState) (rnds : List ℚ) : List ℕ :=
  rnds.map (cdfSample (diagProbs s))

/-- Modelled from the spec: the diagonal of `Linalg::VMatrix::rz_diag`. -/
def rz_diag (t : CVal) : List CVal :=
  [CVal.expI (.neg (.half t)), CVal.expI (.half t)]

/-- Modelled from the spec: the diagonal of `Linalg::VMatrix::rzz_diag`. -/
def rzz_diag (t : CVal) : List CVal :=
  [CVal.expI (.neg (.half t)), CVal.expI (.half t),
   CVal.expI (.half t), CVal.expI (.neg (.half t))]

/-! ### Embedded `State` methods -/

/-- `State::apply_diagonal_unitary_matrix`: in chunked mode a diagonal
whose qubits straddle the local/global boundary is restricted to this
chunk separately for the row and the (conjugated) column side and applied
as one diagonal matrix on the doubled local qubits; otherwise it is
forwarded to the buffer unchanged. -/
def apply_diagonal_unitary_matrix (cfg : ChunkCfg) (qubits : List ℕ) (diag : List CVal) :
    List BufOp :=
  if cfg.chunked then
    let bin := block_diagonal_matrix cfg.chunkIndex cfg.nq qubits diag
    if bin.1.length = qubits.length then [.diagUnitary qubits diag]
    else
      let qubits_row := qubits.map
        (fun q => if cfg.nq ≤ q then q + cfg.numGlobal - cfg.nq else q)
      let brow := block_diagonal_matrix cfg.chunkIndex cfg.nq qubits_row diag
      let qubits_chunk := bin.1 ++ bin.1.map (· + cfg.nq)
      [.diagMatrix qubits_chunk (tensorProdCVal (conjVec brow.2) bin.2)]
  else [.diagUnitary qubits diag]

/-- `State::apply_phase(uint_t, complex_t)`. -/
def apply_phase1 (cfg : ChunkCfg) (q : ℕ) (phase : CVal) : List BufOp :=
  apply_diagonal_unitary_matrix cfg [q] [CVal.lit 1 0, phase]

/-- `State::apply_phase(reg_t, complex_t)`. -/
def apply_phaseN (cfg : ChunkCfg) (qubits : List ℕ) (phase : CVal) : List BufOp :=
  apply_diagonal_unitary_matrix cfg qubits
    ((List.replicate (2 ^ qubits.length) (CVal.lit 1 0)).set (2 ^ qubits.length - 1) phase)

/-- `State::apply_gate_u3`. -/
def apply_gate_u3 (q : ℕ) (theta phi lam : RVal) : List BufOp :=
  [.unitary [q] (.lin (.u3 theta phi lam))]

/-- `State::apply_pauli`: a Pauli string acts on the vectorized state as
`(-1)^(#Y) P⊗P`, i.e. the doubled string on the doubled qubits with the
sign of the odd `Y` count. -/
def apply_pauli (nq : ℕ) (qubits : List ℕ) (pauli : String) : List BufOp :=
  let coeff : CVal := if pauli.toList.count 'Y' % 2 = 1 then .lit (-1) 0 else .lit 1 0
  [.pauliOp (superop_qubits nq qubits) (pauli ++ pauli) coeff]

/-- The gate dispatch of `State::apply_gate` (its body from the
`gateset_` lookup down).  The C++ recursion `apply_gate(new_op)` taken
when both chunk masks hold re-enters `apply_gate` with an operation whose
operands are all local, so its out-of-chunk qubit list is empty and
control falls through to exactly this dispatch; the embedding inlines
that step. -/
def apply_gate_core (cfg : ChunkCfg) (op : Op) : Except SimError (List BufOp) :=
  let q0 := op.qubits.getD 0 0
  let q1 := op.qubits.getD 1 0
  let q2 := op.qubits.getD 2 0
  let p0 := op.params.getD 0 (CVal.lit 0 0)
  let p1 := op.params.getD 1 (CVal.lit 0 0)
  let p2 := op.params.getD 2 (CVal.lit 0 0)
  match gateset op.name with
  | none => .error (.unsupported_gate op.name)
  | some g =>
    match g with
    | .u3 => .ok (apply_gate_u3 q0 (.creOf p0) (.creOf p1) (.creOf p2))
    | .u2 => .ok (apply_gate_u3 q0 .halfPi (.creOf p0) (.creOf p1))
    | .u1 => .ok (apply_phase1 cfg q0 (.expI p0))
    | .cx => .ok [.cnot q0 q1]
    | .cy => .ok [.cyGate q0 q1]
    | .cz => .ok [.cphase q0 q1 (.lit (-1) 0)]
    | .cp => .ok [.cphase q0 q1 (.expI p0)]
    | .id => .ok []
    | .x => .ok [.xGate q0]
    | .y => .ok [.yGate q0]
    | .z => .ok (apply_phase1 cfg q0 (.lit (-1) 0))
    | .h => .ok (apply_gate_u3 q0 .halfPi (.rlit 0) .pi)
    | .s => .ok (apply_phase1 cfg q0 (.lit 0 1))
    | .sdg => .ok (apply_phase1 cfg q0 (.lit 0 (-1)))
    | .sx => .ok [.unitary op.qubits (.lin .sx)]
    | .sxdg => .ok [.unitary op.qubits (.lin .sxdg)]
    | .t => .ok (apply_phase1 cfg q0 (.mulC (.invSqrt 2) (.lit 1 1)))
    | .tdg => .ok (apply_phase1 cfg q0 (.mulC (.invSqrt 2) (.lit 1 (-1))))
    | .swap => .ok [.swapGate q0 q1]
    | .ecr => .ok [.unitary op.qubits (.lin .ecr)]
    | .ccx => .ok [.toffoli q0 q1 q2]
    | .r => .ok [.unitary op.qubits (.lin (.r p0 p1))]
    | .rx => .ok [.unitary op.qubits (.lin (.rx p0))]
    | .ry => .ok [.unitary op.qubits (.lin (.ry p0))]
    | .rz => .ok (apply_diagonal_unitary_matrix cfg op.qubits (rz_diag p0))
    | .rxx => .ok [.unitary op.qubits (.lin (.rxx p0))]
    | .ryy => .ok [.unitary op.qubits (.lin (.ryy p0))]
    | .rzz => .ok (apply_diagonal_unitary_matrix cfg op.qubits (rzz_diag p0))
    | .rzx => .ok [.unitary op.qubits (.lin (.rzx p0))]
    | .pauli => .ok (apply_pauli cfg.nq op.qubits (op.string_params.getD 0 ""))

/-- `State::apply_gate_statevector`: one-sided (statevector-style)
application of a chunk-split controlled gate. -/
def apply_gate_statevector (cfg : ChunkCfg) (op : Op) : Except SimError (List BufOp) :=
  let p0 := op.params.getD 0 (CVal.lit 0 0)
  match gateset op.name with
  | none => .error (.unsupported_gate op.name)
  | some g =>
    match g with
    | .x | .cx => .ok [.mcx op.qubits]
    | .u1 =>
      if op.qubits.getD (op.qubits.length - 1) 0 < cfg.nq then
        .ok [.mcphase op.qubits (.expI p0)]
      else
        .ok [.mcphase op.qubits (.conjC (.expI p0))]
    | .y => .ok [.mcy op.qubits]
    | .z => .ok [.mcphase op.qubits (.lit (-1) 0)]
    | _ => .error (.unsupported_gate op.name)

/-- The test `op.name[0] == 'c' || op.name.find("mc") == 0` selecting
operations whose control qubits are inspected for chunk splitting
(expressed on the character list so that it evaluates by reduction). -/
def isCtrlGateName (name : String) : Bool :=
  name.toList.head?.any (· == 'c') || name.toList.take 2 == ['m', 'c']

/-- `State::apply_gate`: in chunked mode, a controlled gate with
out-of-chunk control qubits is filtered by the row mask (chunk index low
bits) and the column mask (chunk index high bits); if neither holds the
gate is skipped for this chunk, if both hold it is applied on the
remapped local qubits, and if exactly one holds it is applied one-sided
via `apply_gate_statevector`. -/
def apply_gate (cfg : ChunkCfg) (op : Op) : Except SimError (List BufOp) :=
  if cfg.chunked then
    let io := if isCtrlGateName op.name then get_inout_ctrl_qubits op cfg.nq else ([], [])
    if 0 < io.2.length then
      let mask := io.2.foldl (fun m q => m ||| 2 ^ (q - cfg.nq)) 0
      let ctrl_chunk := cfg.chunkIndex &&& mask == mask
      let ctrl_chunk_sp :=
        (cfg.chunkIndex >>> (cfg.numGlobal - cfg.nq)) &&& mask == mask
      if !ctrl_chunk && !ctrl_chunk_sp then .ok []
      else
        let new_op := correct_gate_op_in_chunk op io.1
        if ctrl_chunk && ctrl_chunk_sp then apply_gate_core cfg new_op
        else if ctrl_chunk then apply_gate_statevector cfg new_op
        else apply_gate_statevector cfg { new_op with qubits := new_op.qubits.map (· + cfg.nq) }
    else apply_gate_core cfg op
  else apply_gate_core cfg op

/-- `State::apply_matrix(reg_t, cmatrix_t)`: a one-row matrix is treated
as a diagonal and routed to the diagonal path, anything else is applied
as a dense unitary (`Utils::vectorize_matrix` of a column-major `cmatrix_t`
is its flat data). -/
def apply_matrix (cfg : ChunkCfg) (qubits : List ℕ) (mat : CMat) : List BufOp :=
  if mat.rows = 1 then apply_diagonal_unitary_matrix cfg qubits mat.data
  else [.unitary qubits (.vec mat.data)]

/-- The vectorized permutation matrix built inside
`State::measure_reset_update` (multi-qubit branch): all zero, then the
`(meas_state, final_state)` and `(final_state, meas_state)` entries set
to one, then ones on the diagonal except at `final_state` and
`meas_state`. -/
def mru_perm (dim final_state meas_state : ℕ) : List CVal :=
  let p0 := List.replicate (dim * dim) (CVal.lit 0 0)
  let p1 := p0.set (final_state * dim + meas_state) (CVal.lit 1 0)
  let p2 := p1.set (meas_state * dim + final_state) (CVal.lit 1 0)
  (List.range dim).foldl
    (fun pl j =>
      if j ≠ final_state ∧ j ≠ meas_state then pl.set (j * dim + j) (CVal.lit 1 0) else pl)
    p2

/-- `State::measure_reset_update`: project and renormalize onto the
sampled outcome with a one-entry diagonal `1/sqrt(meas_prob)`, then, when
the desired final state differs from the sampled one, flip to it (an `X`
for one qubit, the swap permutation as a dense unitary otherwise).  The
C++ body contains no `throw`, hence no `.error` value occurs. -/
def measure_reset_update (cfg : ChunkCfg) (qubits : List ℕ)
    (final_state meas_state : ℕ) (meas_prob : ℚ) : Except SimError (List BufOp) :=
  if qubits.length = 1 then
    let mdiag := (List.replicate 2 (CVal.lit 0 0)).set meas_state (CVal.invSqrt meas_prob)
    let t1 := apply_diagonal_unitary_matrix cfg qubits mdiag
    if final_state ≠ meas_state then .ok (t1 ++ [.xGate (qubits.getD 0 0)])
    else .ok t1
  else
    let dim := 2 ^ qubits.length
    let mdiag := (List.replicate dim (CVal.lit 0 0)).set meas_state (CVal.invSqrt meas_prob)
    let t1 := apply_diagonal_unitary_matrix cfg qubits mdiag
    if final_state ≠ meas_state then
      .ok (t1 ++ [.unitary qubits (.vec (mru_perm dim final_state meas_state))])
    else .ok t1

/-- `State::measure_probs`. -/
def measure_probs (s : DMState) (qubits : List ℕ) : List ℚ :=
  probabilities s qubits

/-- `State::sample_measure_with_prob`: sample one outcome from the
marginal probabilities and return it with its probability. -/
def sample_measure_with_prob (s : DMState) (qubits : List ℕ) (rng : RNG) : ℕ × ℚ :=
  let probs := measure_probs s qubits
  let outcome := rng.randInt probs
  (outcome, probs.getD outcome 0)

/-- `State::apply_measure`: sample, collapse onto the sampled outcome
(passed as both `final_state` and `meas_state`), then store the outcome
bits in the classical memory and register arrays. -/
def apply_measure (s : DMState) (qubits cmemory cregister : List ℕ) (rng : RNG) :
    Except SimError (List BufOp) := do
  let meas := sample_measure_with_prob s qubits rng
  let t ← measure_reset_update s.cfg qubits meas.1 meas.1 meas.2
  let outcome := int2reg meas.1 2 qubits.length
  .ok (t ++ [.storeMeasure outcome cmemory cregister])

/-- `State::apply_reset`. -/
def apply_reset (qubits : List ℕ) : List BufOp :=
  [.resetOp qubits]

/-- `State::sample_measure`: draw `shots` uniform deviates, hand them to
the buffer's (pure) `sample_measure`, and slice each sampled full-register
bitstring down to the requested qubits.  The buffer is read, never
written, so the state is returned unchanged. -/
def sample_measure (s : DMState) (qubits : List ℕ) (shots : ℕ) (rng : RNG) :
    List (List ℕ) × DMState :=
  let rnds := (List.range shots).map rng.uniform
  let allbit_samples := bufferSampleMeasure s rnds
  let all_samples := allbit_samples.map (fun val =>
    let allbit_sample := int2reg val 2 s.cfg.nq
    qubits.map (fun q => allbit_sample.getD q 0))
  (all_samples, s)

/-- `State::apply_save_state`: a full-state save must list exactly
`num_qubits` qubits; on success the (renamed) key and the move-vs-copy
decision driven by `last_op` are handed to the result sink. -/
def apply_save_state (s : DMState) (op : Op) (last_op : Bool) :
    Except SimError (List BufOp) :=
  if op.qubits.length ≠ s.cfg.nq then .error (.save_not_full_state op.name)
  else
    let sp0 := op.string_params.getD 0 ""
    let key := if sp0 = "_method_" then "density_matrix" else sp0
    .ok [.saveStateData key last_op]

/-- `State::apply_save_density_matrix`. -/
def apply_save_density_matrix (op : Op) (last_op : Bool) : List BufOp :=
  [.saveDensmatData (op.string_params.getD 0 "") op.qubits last_op]

/-- `State::apply_save_probs`. -/
def apply_save_probs (op : Op) : List BufOp :=
  [.saveProbsData (op.string_params.getD 0 "") (decide (op.otype = .save_probs_ket))]

/-- `State::apply_save_amplitudes_sq`. -/
def apply_save_amplitudes_sq (op : Op) : Except SimError (List BufOp) :=
  if op.int_params.isEmpty then
    .error (.invalid_params "Invalid save_amplitudes_sq instructions (empty params).")
  else .ok [.saveAmpsSqData (op.string_params.getD 0 "") op.int_params]

/-- The operation kinds handled by a `case` of the `apply_op` switch
(everything else falls to the throwing `default`). -/
def supportedOpTypes : List OpType :=
  [.barrier, .qerror_loc, .reset, .measure, .bfunc, .roerror, .gate,
   .matrix, .diagonal_matrix, .superop, .kraus, .set_statevec, .set_densmat,
   .save_expval, .save_expval_var, .save_state, .save_densmat, .save_probs,
   .save_probs_ket, .save_amps_sq]

/-- `State::apply_op`: conditional gating followed by the dispatch switch
over the operation kind; an unhandled kind throws an invalid-instruction
error carrying the operation name. -/
def apply_op (s : DMState) (op : Op) (condPass : Bool) (rng : RNG) (final_ops : Bool) :
    Except SimError (List BufOp) :=
  if !condPass then .ok []
  else
    match op.otype with
    | .barrier | .qerror_loc => .ok []
    | .reset => .ok (apply_reset op.qubits)
    | .measure => apply_measure s op.qubits op.memory op.registers rng
    | .bfunc => .ok [.applyBfunc]
    | .roerror => .ok [.applyRoerror]
    | .gate => apply_gate s.cfg op
    | .matrix => .ok (apply_matrix s.cfg op.qubits (op.mats.getD 0 default))
    | .diagonal_matrix => .ok (apply_diagonal_unitary_matrix s.cfg op.qubits op.params)
    | .superop => .ok [.superopMat op.qubits (.vecOfMat (op.mats.getD 0 default))]
    | .kraus => .ok [.superopMat op.qubits (.krausOf op.mats)]
    | .set_statevec => .ok [.initFromVector (tensorProdCVal (conjVec op.params) op.params)]
    | .set_densmat => .ok [.initFromMatrix (op.mats.getD 0 default)]
    | .save_expval | .save_expval_var => .ok [.saveExpval]
    | .save_state => apply_save_state s op final_ops
    | .save_densmat => .ok (apply_save_density_matrix op final_ops)
    | .save_probs | .save_probs_ket => .ok (apply_save_probs op)
    | .save_amps_sq => apply_save_amplitudes_sq op
    | .jump | .mark => .error (.unsupported_instruction op.name)

/-! ### The partial-trace engine -/

/-- `std::sort` on a qubit list. -/
def sortQubits (l : List ℕ) : List ℕ :=
  List.insertionSort (· ≤ ·) l

/-- One zero bit inserted at position `p`: bits `≥ p` shift up, bits
`< p` stay (`retval >>= p; retval <<= p + 1; retval |= lowbits`). -/
def insertBit0 (p x : ℕ) : ℕ :=
  x / 2 ^ p * 2 ^ (p + 1) + x % 2 ^ p

/-- Modelled from the spec: `QV::index0(qubits_sorted, k)`, spreading the
bits of `k` over the positions not occupied by `qubits_sorted` by
inserting a zero bit at each sorted position in ascending order. -/
def index0 (ps : List ℕ) (k : ℕ) : ℕ :=
  ps.foldl (fun acc p => insertBit0 p acc) k

/-- The number whose bit at position `qs[t]` is bit `t` of `x` (and all
other bits zero). -/
def placeBits : List ℕ → ℕ → ℕ
  | [], _ => 0
  | q :: qs, x => x % 2 * 2 ^ q + placeBits qs (x / 2)

/-- Modelled from the spec: entry `i` of `QV::indexes(qs, qs_sorted, blk)`,
the index-generating function over the complement qubit set: the bits of
`blk` fill the positions outside `qs_sorted` and the bits of `i` sit at
the positions `qs` (in operand order). -/
def qvIndexes (qs qs_sorted : List ℕ) (blk i : ℕ) : ℕ :=
  index0 qs_sorted blk + placeBits qs i

/-- `State::reduced_density_matrix_helper` as the map from the flat
(column-major) output index to the accumulated entry: the block at
complement index 0 initializes each entry (a move from the buffer copy)
and each subsequent block at stride `END + 1` is added. -/
def rdm_helper (s : DMState) (qubits qubits_sorted : List ℕ) : ℕ → CQ :=
  let bend := 2 ^ (s.cfg.nq - qubits.length)
  let shift := bend + 1
  let squbits := superop_qubits s.cfg.nq qubits
  let squbits_sorted := superop_qubits s.cfg.nq qubits_sorted
  (List.range (bend - 1)).foldl
    (fun acc k => fun i => acc i + s.vec (qvIndexes squbits squbits_sorted ((k + 1) * shift) i))
    (fun i => s.vec (qvIndexes squbits squbits_sorted 0 i))

/-- A complex matrix of dimension `dim × dim` as its flat column-major
entry map (an `AER::cmatrix_t`). -/
structure CMatCQ where
  dim : ℕ
  entry : ℕ → CQ

/-- How `reduced_density_matrix` produced its result: the 1×1 trace, the
full matrix moved out of the buffer, the full matrix copied, or a proper
partial-trace reduction. -/
inductive Acquire where
  | traced | moved | copied | reduced
  deriving DecidableEq, Repr

/-- `State::move_to_matrix` (the buffer handed over as the full matrix). -/
def move_to_matrix (s : DMState) : CMatCQ :=
  ⟨2 ^ s.cfg.nq, s.vec⟩

/-- `State::copy_to_matrix`. -/
def copy_to_matrix (s : DMState) : CMatCQ :=
  ⟨2 ^ s.cfg.nq, s.vec⟩

/-- `State::reduced_density_matrix`, tagged with which branch produced
the result. -/
def reduced_density_matrix (s : DMState) (qubits : List ℕ) (last_op : Bool) :
    CMatCQ × Acquire :=
  if qubits.isEmpty then (⟨1, fun _ => bufferTrace s⟩, .traced)
  else
    let qubits_sorted := sortQubits qubits
    if qubits.length = s.cfg.nq ∧ qubits = qubits_sorted then
      if last_op then (move_to_matrix s, .moved) else (copy_to_matrix s, .copied)
    else (⟨2 ^ qubits.length, rdm_helper s qubits qubits_sorted⟩, .reduced)

/-! ### Specification-side definitions (for refinement statements) -/

/-- The complement of a qubit subset inside `range n`, in ascending
order. -/
def complQubits (n : ℕ) (qubits : List ℕ) : List ℕ :=
  (List.range n).filter (fun q => decide (q ∉ qubits))

/-- The exact partial trace `Tr_complement(ρ)` of the spec: entry
`(r, c)` of the reduced matrix sums, over every assignment `k` of the
complement qubits, the buffer entry whose row index carries the bits of
`r` on `qubits` and of `k` on the complement, and likewise for the
column. -/
def partialTrace (s : DMState) (qubits : List ℕ) (r c : ℕ) : CQ :=
  ((List.range (2 ^ (s.cfg.nq - qubits.length))).map (fun k =>
    s.vec ((placeBits qubits r + placeBits (complQubits s.cfg.nq qubits) k) +
      2 ^ s.cfg.nq *
        (placeBits qubits c + placeBits (complQubits s.cfg.nq qubits) k)))).sum

/-- The spec's description of a save target that covers the whole
register. -/
def coversRegister (qubits : List ℕ) (n : ℕ) : Prop :=
  ∀ q, q < n → q ∈ qubits

instance (qubits : List ℕ) (n : ℕ) : Decidable (coversRegister qubits n) :=
  Nat.decidableBallLT n fun q _ => q ∈ qubits

/-- The spec's permutation matrix for `measure_reset_update`: the
`dim × dim` matrix that swaps basis states `f` and `m` and is the
identity elsewhere, as its `(r, c)` entry. -/
def permSwapSpec (f m r c : ℕ) : CVal :=
  if r = f then (if c = m then .lit 1 0 else .lit 0 0)
  else if r = m then (if c = f then .lit 1 0 else .lit 0 0)
  else if r = c then .lit 1 0 else .lit 0 0

/-- The renamed save key computed by `apply_save_state`. -/
def save_state_key (op : Op) : String :=
  if op.string_params.getD 0 "" = "_method_" then "density_matrix"
  else op.string_params.getD 0 ""

/-! ### Gaussian-integer semantics for Pauli superoperators -/

/-- A Gaussian integer, the exact value domain of Pauli-string matrix
entries (`0`, `±1`, `±i`). -/
structure GI where
  re : ℤ
  im : ℤ
  deriving DecidableEq, Repr

instance : Zero GI := ⟨⟨0, 0⟩⟩
instance : One GI := ⟨⟨1, 0⟩⟩
instance : Add GI := ⟨fun a b => ⟨a.re + b.re, a.im + b.im⟩⟩
instance : Mul GI := ⟨fun a b => ⟨a.re * b.re - a.im * b.im, a.re * b.im + a.im * b.re⟩⟩

/-- Complex conjugation on Gaussian integers. -/
def GI.conj (a : GI) : GI := ⟨a.re, -a.im⟩

/-- The `(r, c)` entry of a single-qubit Pauli matrix, rows and columns
indexed by bits. -/
def pauliEntry (ch : Char) (r c : Bool) : GI :=
  match ch with
  | 'X' => if r = c then 0 else 1
  | 'Y' =>
    if r = false ∧ c = true then ⟨0, -1⟩
    else if r = true ∧ c = false then ⟨0, 1⟩
    else 0
  | 'Z' => if r = c then (if r then ⟨-1, 0⟩ else 1) else 0
  | _ => if r = c then 1 else 0

/-- Modelled from the spec: the operator applied by the buffer primitive
`qreg_.apply_pauli(qubits, pauli, coeff)` (up to the scalar `coeff`): the
Pauli-string operator on an `m`-qubit space with letter `pauli[t]` acting
on qubit `qubits[t]` and the identity on all other qubits, as its
`(r, c)` entry. -/
def pauliStrMat (m : ℕ) (qs : List ℕ) (pauli : List Char) (r c : ℕ) : GI :=
  if (List.range m).all (fun t => qs.contains t || (r.testBit t == c.testBit t)) then
    (List.zip qs pauli).foldl
      (fun acc qc => acc * pauliEntry qc.2 (r.testBit qc.1) (c.testBit qc.1)) 1
  else 0

/-- Scalar multiple of an entry map. -/
def scaleMat (a : GI) (M : ℕ → ℕ → GI) (r c : ℕ) : GI :=
  a * M r c

/-- Matrix product of two `dim × dim` entry maps. -/
def matMulN (dim : ℕ) (A B : ℕ → ℕ → GI) (r c : ℕ) : GI :=
  ((List.range dim).map (fun k => A r k * B k c)).sum

/-- Modelled from the spec: the action of the unitary channel
`ρ ↦ U ρ U†` on the column-stacked vectorized density matrix of `n`
qubits: `U` acts on the ket (low) qubits and `conj U` on the bra (high)
qubits. -/
def applyChannelMat (n : ℕ) (U : ℕ → ℕ → GI) (r c : ℕ) : GI :=
  U (r % 2 ^ n) (c % 2 ^ n) * (U (r / 2 ^ n) (c / 2 ^ n)).conj

/-! ### Bit-placement lemmas for the partial-trace engine -/

theorem placeBits_map_add (qs : List ℕ) (a : ℕ) :
    ∀ x, placeBits (qs.map (· + a)) x = 2 ^ a * placeBits qs x := by
  induction qs with
  | nil => intro x; simp [placeBits]
  | cons q qs ih =>
    intro x
    simp only [List.map_cons, placeBits, ih (x / 2)]
    rw [pow_add]
    ring

theorem placeBits_append (A B : List ℕ) :
    ∀ x, placeBits (A ++ B) x = placeBits A x + placeBits B (x / 2 ^ A.length) := by
  induction A with
  | nil => intro x; simp [placeBits]
  | cons q A ih =>
    intro x
    simp only [List.cons_append, placeBits, List.length_cons, List.append_eq]
    have h2 : (2 : ℕ) * 2 ^ A.length = 2 ^ (A.length + 1) := by
      rw [pow_succ]
      ring
    rw [ih (x / 2), Nat.div_div_eq_div_mul, h2, add_assoc]

theorem placeBits_mod (qs : List ℕ) :
    ∀ x, placeBits qs (x % 2 ^ qs.length) = placeBits qs x := by
  induction qs with
  | nil => intro x; simp [placeBits]
  | cons q qs ih =>
    intro x
    have h2 : (2 : ℕ) ^ (q :: qs).length = 2 * 2 ^ qs.length := by
      simp [List.length_cons]
      ring
    simp only [placeBits]
    rw [h2, Nat.mod_mul]
    have hlt : x / 2 % 2 ^ qs.length < 2 ^ qs.length :=
      Nat.mod_lt _ (Nat.pos_pow_of_pos _ (by norm_num))
    have e1 : (x % 2 + 2 * (x / 2 % 2 ^ qs.length)) % 2 = x % 2 := by omega
    have e2 : (x % 2 + 2 * (x / 2 % 2 ^ qs.length)) / 2 = x / 2 % 2 ^ qs.length := by
      omega
    rw [e1, e2, ih (x / 2)]

theorem placeBits_range (m : ℕ) : ∀ k, k < 2 ^ m → placeBits (List.range m) k = k := by
  induction m with
  | zero =>
    intro k hk
    interval_cases k
    simp [placeBits]
  | succ m ih =>
    intro k hk
    rw [List.range_succ_eq_map,
      show (List.range m).map Nat.succ = (List.range m).map (· + 1) from rfl]
    simp only [placeBits, pow_zero, one_mul]
    rw [placeBits_map_add, ih (k / 2) (by
      have h2 : (2 : ℕ) ^ (m + 1) = 2 * 2 ^ m := by ring
      omega)]
    omega

/-- `insertBit0 p a` doubles `a` except for the `p` low bits. -/
theorem insertBit0_eq (p a : ℕ) : insertBit0 p a = 2 * a - a % 2 ^ p := by
  unfold insertBit0
  have hm := Nat.div_add_mod a (2 ^ p)
  have h3 : a / 2 ^ p * 2 ^ (p + 1) = 2 * (2 ^ p * (a / 2 ^ p)) := by
    rw [pow_succ]
    ring
  omega

theorem mod_pow_add_mul (a b p m : ℕ) (hp : p ≤ m) :
    (a + b * 2 ^ m) % 2 ^ p = a % 2 ^ p := by
  have hpow : (2 : ℕ) ^ m = 2 ^ (m - p) * 2 ^ p := by
    rw [← pow_add]
    congr 1
    omega
  rw [hpow, ← mul_assoc, Nat.add_mul_mod_self_right]

theorem insertBit0_low (p m a b : ℕ) (hp : p ≤ m) :
    insertBit0 p (a + b * 2 ^ m) = insertBit0 p a + b * 2 ^ (m + 1) := by
  rw [insertBit0_eq, insertBit0_eq, mod_pow_add_mul a b p m hp]
  have h1 : a % 2 ^ p ≤ a := Nat.mod_le _ _
  have h2 : b * 2 ^ (m + 1) = 2 * (b * 2 ^ m) := by ring
  omega

theorem insertBit0_lt (p m a : ℕ) (_hp : p ≤ m) (ha : a < 2 ^ m) :
    insertBit0 p a < 2 ^ (m + 1) := by
  rw [insertBit0_eq]
  have h1 : (2 : ℕ) ^ (m + 1) = 2 * 2 ^ m := by ring
  omega

theorem insertBit0_zero (k : ℕ) : insertBit0 0 k = 2 * k := by
  rw [insertBit0_eq]
  simp [Nat.mod_one]

theorem insertBit0_high (p n y z : ℕ) (hy : y < 2 ^ n) :
    insertBit0 (p + n) (y + z * 2 ^ n) = y + insertBit0 p z * 2 ^ n := by
  have hz := Nat.div_add_mod z (2 ^ p)
  have hzm : z % 2 ^ p < 2 ^ p := Nat.mod_lt _ (Nat.pos_pow_of_pos _ (by norm_num))
  have hsplit : y + z * 2 ^ n = (y + z % 2 ^ p * 2 ^ n) + z / 2 ^ p * 2 ^ (p + n) := by
    rw [pow_add]
    calc y + z * 2 ^ n = y + (2 ^ p * (z / 2 ^ p) + z % 2 ^ p) * 2 ^ n := by rw [hz]
      _ = (y + z % 2 ^ p * 2 ^ n) + z / 2 ^ p * (2 ^ p * 2 ^ n) := by ring
  have hlow : y + z % 2 ^ p * 2 ^ n < 2 ^ (p + n) := by
    have h1 : z % 2 ^ p * 2 ^ n ≤ (2 ^ p - 1) * 2 ^ n :=
      Nat.mul_le_mul_right _ (by omega)
    have h2 : (2 : ℕ) ^ (p + n) = 2 ^ p * 2 ^ n := pow_add 2 p n
    have h3 : (2 ^ p - 1) * 2 ^ n = 2 ^ p * 2 ^ n - 1 * 2 ^ n := by
      rw [← Nat.sub_mul]
    have h4 : (1 : ℕ) ≤ 2 ^ p := Nat.pos_pow_of_pos _ (by norm_num)
    have h5 : (1 : ℕ) * 2 ^ n = 2 ^ n := one_mul _
    have h6 : (2 : ℕ) ^ n ≤ 2 ^ p * 2 ^ n :=
      Nat.le_mul_of_pos_left _ (Nat.pos_pow_of_pos _ (by norm_num))
    omega
  have hmod : (y + z * 2 ^ n) % 2 ^ (p + n) = y + z % 2 ^ p * 2 ^ n := by
    rw [hsplit, Nat.add_mul_mod_self_right, Nat.mod_eq_of_lt hlow]
  rw [insertBit0_eq, insertBit0_eq, hmod]
  have h1 : z % 2 ^ p ≤ z := Nat.mod_le _ _
  have h2 : (2 * z - z % 2 ^ p) * 2 ^ n = 2 * (z * 2 ^ n) - z % 2 ^ p * 2 ^ n := by
    rw [Nat.sub_mul]
    ring_nf
  have h3 : z % 2 ^ p * 2 ^ n ≤ z * 2 ^ n := Nat.mul_le_mul_right _ h1
  omega

/-! ### Lemmas about `index0` -/

theorem index0_append (A B : List ℕ) (x : ℕ) :
    index0 (A ++ B) x = index0 B (index0 A x) := by
  unfold index0
  rw [List.foldl_append]

theorem index0_cons (p : ℕ) (ps : List ℕ) (x : ℕ) :
    index0 (p :: ps) x = index0 ps (insertBit0 p x) := rfl

theorem index0_map_add (qs : List ℕ) (n : ℕ) :
    ∀ y z, y < 2 ^ n →
    index0 (qs.map (· + n)) (y + z * 2 ^ n) = y + index0 qs z * 2 ^ n := by
  induction qs with
  | nil => intro y z _; simp [index0]
  | cons p qs ih =>
    intro y z hy
    rw [List.map_cons, index0_cons, index0_cons, insertBit0_high p n y z hy,
      ih y (insertBit0 p z) hy]

/-- Positions bounded below their insertion point, each subsequent one by
one more (the shape in which `index0`'s sorted positions arrive). -/
def BoundedAsc : ℕ → List ℕ → Prop
  | _, [] => True
  | m, p :: ps => p ≤ m ∧ BoundedAsc (m + 1) ps

theorem index0_low (ps : List ℕ) : ∀ m a b, BoundedAsc m ps → a < 2 ^ m →
    index0 ps (a + b * 2 ^ m) = index0 ps a + b * 2 ^ (m + ps.length) := by
  induction ps with
  | nil => intro m a b _ _; simp [index0]
  | cons p ps ih =>
    intro m a b hba ha
    obtain ⟨hp, hba'⟩ := hba
    rw [index0_cons, index0_cons, insertBit0_low p m a b hp,
      ih (m + 1) _ b hba' (insertBit0_lt p m a hp ha),
      show m + 1 + ps.length = m + (p :: ps).length from by simp [List.length_cons]; omega]

theorem index0_lt (ps : List ℕ) : ∀ m a, BoundedAsc m ps → a < 2 ^ m →
    index0 ps a < 2 ^ (m + ps.length) := by
  induction ps with
  | nil => intro m a _ ha; simpa [index0] using ha
  | cons p ps ih =>
    intro m a hba ha
    obtain ⟨hp, hba'⟩ := hba
    rw [index0_cons]
    have := ih (m + 1) _ hba' (insertBit0_lt p m a hp ha)
    rwa [show m + 1 + ps.length = m + (p :: ps).length from by simp [List.length_cons]; omega]
      at this

theorem pairwise_head_bound (ps : List ℕ) :
    ∀ p bound, (p :: ps).Pairwise (· < ·) → (∀ q ∈ p :: ps, q < bound) →
    p + ps.length < bound := by
  induction ps with
  | nil => intro p bound _ hb; simpa using hb p (by simp)
  | cons q ps ih =>
    intro p bound hp hb
    have hq : q + ps.length < bound :=
      ih q bound (List.pairwise_cons.mp hp).2 (fun x hx => hb x (List.mem_cons_of_mem _ hx))
    have hpq : p < q := (List.pairwise_cons.mp hp).1 q (by simp)
    simp only [List.length_cons]
    omega

theorem boundedAsc_of_pairwise (ps : List ℕ) : ∀ n, ps.Pairwise (· < ·) →
    (∀ q ∈ ps, q < n) → BoundedAsc (n - ps.length) ps := by
  induction ps with
  | nil => intro n _ _; trivial
  | cons p ps ih =>
    intro n hp hb
    have hpb : p + ps.length < n := pairwise_head_bound ps p n hp hb
    refine ⟨by simp only [List.length_cons]; omega, ?_⟩
    have htail := ih n (List.pairwise_cons.mp hp).2
      (fun q hq => hb q (List.mem_cons_of_mem _ hq))
    have he : n - (p :: ps).length + 1 = n - ps.length := by
      simp only [List.length_cons]
      omega
    rw [he]
    exact htail

theorem length_le_of_pairwise_bound (ps : List ℕ) (n : ℕ) (hp : ps.Pairwise (· < ·))
    (hb : ∀ q ∈ ps, q < n) : ps.length ≤ n := by
  cases ps with
  | nil => exact Nat.zero_le n
  | cons p ps' =>
    have := pairwise_head_bound ps' p n hp hb
    simp only [List.length_cons]
    omega

theorem map_sub_one_map_add_one (l : List ℕ) (h : ∀ q ∈ l, 1 ≤ q) :
    (l.map (· - 1)).map (· + 1) = l := by
  induction l with
  | nil => rfl
  | cons q l ih =>
    simp only [List.map_cons]
    rw [ih (fun x hx => h x (List.mem_cons_of_mem _ hx))]
    have := h q (by simp)
    congr 1
    omega

theorem mem_map_add_one (qs : List ℕ) (q : ℕ) : q + 1 ∈ qs.map (· + 1) ↔ q ∈ qs := by
  constructor
  · intro hq
    obtain ⟨q', hq', he⟩ := List.mem_map.mp hq
    have : q' = q := by omega
    rwa [← this]
  · intro hq
    exact List.mem_map.mpr ⟨q, hq, rfl⟩

/-- `index0` really is the placement of its argument's bits at the
complement positions: spreading `k` by inserting zero bits at a strictly
ascending list of positions below `n` equals writing the bits of `k`, in
order, at the positions of `range n` not in the list. -/
theorem index0_eq_placeBits_compl : ∀ (n : ℕ) (ps : List ℕ) (k : ℕ),
    ps.Pairwise (· < ·) → (∀ q ∈ ps, q < n) → k < 2 ^ (n - ps.length) →
    index0 ps k = placeBits ((List.range n).filter (fun q => decide (q ∉ ps))) k := by
  intro n
  induction n with
  | zero =>
    intro ps k hp hb hk
    have hps : ps = [] := by
      cases ps with
      | nil => rfl
      | cons p ps' => exact absurd (hb p (by simp)) (by omega)
    subst hps
    simp only [List.length_nil, Nat.sub_zero, pow_zero, Nat.lt_one_iff] at hk
    subst hk
    simp [index0, placeBits]
  | succ n ih =>
    intro ps k hp hb hk
    cases ps with
    | nil =>
      simp only [index0, List.foldl_nil]
      have hfil : (List.range (n + 1)).filter (fun q => decide (q ∉ ([] : List ℕ))) =
          List.range (n + 1) := by
        apply List.filter_eq_self.mpr
        intro a _
        simp
      rw [hfil, placeBits_range (n + 1) k (by simpa using hk)]
    | cons p ps' =>
      by_cases hp0 : p = 0
      · subst hp0
        have hge : ∀ q ∈ ps', 1 ≤ q := by
          intro q hq
          have := (List.pairwise_cons.mp hp).1 q hq
          omega
        have hps' : ps' = (ps'.map (· - 1)).map (· + 1) :=
          (map_sub_one_map_add_one ps' hge).symm
        rw [index0_cons, insertBit0_zero]
        have lhs2 : index0 ps' (2 * k) = 2 * index0 (ps'.map (· - 1)) k := by
          conv_lhs => rw [hps']
          have h := index0_map_add (ps'.map (· - 1)) 1 0 k (by norm_num)
          simp only [pow_one] at h
          rw [show 2 * k = 0 + k * 2 from by ring, h]
          ring
        rw [lhs2]
        have hqp : (ps'.map (· - 1)).Pairwise (· < ·) := by
          rw [List.pairwise_map]
          refine List.Pairwise.imp_of_mem ?_ (List.pairwise_cons.mp hp).2
          intro a b ha _ hab
          have := hge a ha
          omega
        have hqb : ∀ q ∈ ps'.map (· - 1), q < n := by
          intro q hq
          obtain ⟨q', hq', rfl⟩ := List.mem_map.mp hq
          have h1 := hb q' (List.mem_cons_of_mem _ hq')
          have h2 := hge q' hq'
          omega
        have hqk : k < 2 ^ (n - (ps'.map (· - 1)).length) := by
          have hl : (ps'.map (· - 1)).length = ps'.length := by simp
          have he : n + 1 - (0 :: ps').length = n - ps'.length := by
            simp only [List.length_cons]
            omega
          rw [hl]
          rw [he] at hk
          exact hk
        rw [ih (ps'.map (· - 1)) k hqp hqb hqk]
        have hfil : (List.range (n + 1)).filter (fun q => decide (q ∉ (0 :: ps'))) =
            ((List.range n).filter (fun q => decide (q ∉ ps'.map (· - 1)))).map (· + 1) := by
          rw [List.range_succ_eq_map,
            show (List.range n).map Nat.succ = (List.range n).map (· + 1) from rfl]
          rw [List.filter_cons]
          simp only [show (decide ((0 : ℕ) ∉ (0 : ℕ) :: ps') = true) = False from by simp,
            if_false]
          rw [List.filter_map]
          congr 1
          apply List.filter_congr
          intro q _
          simp only [Function.comp_apply, decide_eq_decide, List.mem_cons]
          conv_lhs => rw [hps']
          rw [mem_map_add_one]
          simp
        rw [hfil, placeBits_map_add ((List.range n).filter _) 1 k, pow_one]
      · have hge : ∀ q ∈ p :: ps', 1 ≤ q := by
          intro q hq
          rcases List.mem_cons.mp hq with rfl | hq'
          · omega
          · have := (List.pairwise_cons.mp hp).1 q hq'
            omega
        have hps : p :: ps' = ((p :: ps').map (· - 1)).map (· + 1) :=
          (map_sub_one_map_add_one _ hge).symm
        have hlq : ((p :: ps').map (· - 1)).length = ps'.length + 1 := by simp
        have lhs1 : index0 (p :: ps') k =
            k % 2 + index0 ((p :: ps').map (· - 1)) (k / 2) * 2 := by
          conv_lhs => rw [hps]
          have hsplit2 : index0 (((p :: ps').map (· - 1)).map (· + 1)) k =
              index0 (((p :: ps').map (· - 1)).map (· + 1)) (k % 2 + k / 2 * 2) := by
            congr 1
            omega
          have h := index0_map_add ((p :: ps').map (· - 1)) 1 (k % 2) (k / 2) (by omega)
          simp only [pow_one] at h
          rw [hsplit2, h]
        rw [lhs1]
        have hqp : ((p :: ps').map (· - 1)).Pairwise (· < ·) := by
          rw [List.pairwise_map]
          refine List.Pairwise.imp_of_mem ?_ hp
          intro a b ha _ hab
          have := hge a ha
          omega
        have hqb : ∀ q ∈ (p :: ps').map (· - 1), q < n := by
          intro q hq
          obtain ⟨q', hq', rfl⟩ := List.mem_map.mp hq
          have h1 := hb q' hq'
          have h2 := hge q' hq'
          omega
        have hqk : k / 2 < 2 ^ (n - ((p :: ps').map (· - 1)).length) := by
          rw [hlq]
          have he : n + 1 - (p :: ps').length = n - ps'.length := by
            simp only [List.length_cons]
            omega
          rw [he] at hk
          rcases le_or_lt (ps'.length + 1) n with hcase | hcase
          · have e2 : n - ps'.length = (n - (ps'.length + 1)) + 1 := by omega
            rw [e2] at hk
            have e3 : (2 : ℕ) ^ ((n - (ps'.length + 1)) + 1) =
                2 * 2 ^ (n - (ps'.length + 1)) := by ring
            omega
          · have e2 : n - ps'.length = 0 := by omega
            rw [e2] at hk
            have hk0 : k = 0 := by omega
            subst hk0
            simp
        rw [ih ((p :: ps').map (· - 1)) (k / 2) hqp hqb hqk]
        have hfil : (List.range (n + 1)).filter (fun q => decide (q ∉ (p :: ps'))) =
            0 :: ((List.range n).filter
              (fun q => decide (q ∉ (p :: ps').map (· - 1)))).map (· + 1) := by
          rw [List.range_succ_eq_map,
            show (List.range n).map Nat.succ = (List.range n).map (· + 1) from rfl]
          rw [List.filter_cons]
          have h0 : decide ((0 : ℕ) ∉ p :: ps') = true := by
            simp only [decide_eq_true_eq]
            intro hmem
            have := hge 0 hmem
            omega
          rw [if_pos h0, List.filter_map]
          congr 2
          apply List.filter_congr
          intro q _
          simp only [Function.comp_apply, decide_eq_decide]
          conv_lhs => rw [hps]
          rw [mem_map_add_one]
        rw [hfil]
        simp only [placeBits, pow_zero, mul_one]
        rw [placeBits_map_add ((List.range n).filter _) 1 (k / 2), pow_one]
        ring

theorem index0_superop (ps : List ℕ) (n k : ℕ) (hp : ps.Pairwise (· < ·))
    (hb : ∀ q ∈ ps, q < n) (hk : k < 2 ^ (n - ps.length)) :
    index0 (ps ++ ps.map (· + n)) (k * (2 ^ (n - ps.length) + 1)) =
      index0 ps k + index0 ps k * 2 ^ n := by
  have hlen : ps.length ≤ n := length_le_of_pairwise_bound ps n hp hb
  have hba := boundedAsc_of_pairwise ps n hp hb
  have hsplit : k * (2 ^ (n - ps.length) + 1) = k + k * 2 ^ (n - ps.length) := by ring
  have he : n - ps.length + ps.length = n := by omega
  rw [index0_append, hsplit, index0_low ps (n - ps.length) k k hba hk, he]
  have hy : index0 ps k < 2 ^ n := by
    have := index0_lt ps (n - ps.length) k hba hk
    rwa [he] at this
  exact index0_map_add ps n (index0 ps k) k hy

/-! ### Sorting lemmas -/

theorem sortQubits_perm (l : List ℕ) : (sortQubits l).Perm l :=
  List.perm_insertionSort _ l

theorem sortQubits_sorted (l : List ℕ) : List.Sorted (· ≤ ·) (sortQubits l) :=
  List.sorted_insertionSort _ l

theorem sortQubits_pairwise_lt (l : List ℕ) (h : l.Nodup) :
    (sortQubits l).Pairwise (· < ·) := by
  have hn : (sortQubits l).Nodup := (sortQubits_perm l).nodup_iff.mpr h
  exact ((sortQubits_sorted l).and hn).imp fun hab => lt_of_le_of_ne hab.1 hab.2

theorem foldl_add_apply (g : ℕ → CQ) (f : ℕ → ℕ → CQ) (m i : ℕ) :
    ((List.range m).foldl (fun acc k => fun j => acc j + f k j) g) i =
      g i + ((List.range m).map (fun k => f k i)).sum := by
  induction m with
  | zero => simp
  | succ m ih =>
    rw [List.range_succ, List.foldl_append, List.map_append]
    simp only [List.foldl_cons, List.foldl_nil, List.map_cons, List.map_nil,
      List.sum_append, List.sum_cons, List.sum_nil]
    rw [ih, add_zero, add_assoc]

theorem sum_range_succ_shift (f : ℕ → CQ) (m : ℕ) (hm : 0 < m) :
    ((List.range m).map f).sum =
      f 0 + ((List.range (m - 1)).map (fun k => f (k + 1))).sum := by
  obtain ⟨m', rfl⟩ : ∃ m', m = m' + 1 := ⟨m - 1, by omega⟩
  rw [List.range_succ_eq_map]
  simp only [List.map_cons, List.sum_cons, List.map_map, Nat.add_sub_cancel]
  rfl

theorem rdm_helper_eq_sum (s : DMState) (qubits qsorted : List ℕ) (i : ℕ) :
    rdm_helper s qubits qsorted i =
      ((List.range (2 ^ (s.cfg.nq - qubits.length))).map (fun k =>
        s.vec (qvIndexes (superop_qubits s.cfg.nq qubits)
          (superop_qubits s.cfg.nq qsorted)
          (k * (2 ^ (s.cfg.nq - qubits.length) + 1)) i))).sum := by
  unfold rdm_helper
  rw [foldl_add_apply,
    sum_range_succ_shift
      (fun k => s.vec (qvIndexes (superop_qubits s.cfg.nq qubits)
        (superop_qubits s.cfg.nq qsorted)
        (k * (2 ^ (s.cfg.nq - qubits.length) + 1)) i))
      (2 ^ (s.cfg.nq - qubits.length)) (Nat.pos_pow_of_pos _ (by norm_num))]
  simp

theorem qvIndexes_eq (n : ℕ) (qubits : List ℕ) (hnd : qubits.Nodup)
    (hb : ∀ q ∈ qubits, q < n) (k i : ℕ) (hk : k < 2 ^ (n - qubits.length)) :
    qvIndexes (superop_qubits n qubits) (superop_qubits n (sortQubits qubits))
        (k * (2 ^ (n - qubits.length) + 1)) i =
      (placeBits qubits (i % 2 ^ qubits.length) + placeBits (complQubits n qubits) k) +
        2 ^ n *
          (placeBits qubits (i / 2 ^ qubits.length) + placeBits (complQubits n qubits) k) := by
  have hsp : (sortQubits qubits).Pairwise (· < ·) := sortQubits_pairwise_lt qubits hnd
  have hsb : ∀ q ∈ sortQubits qubits, q < n :=
    fun q hq => hb q ((sortQubits_perm qubits).mem_iff.mp hq)
  have hsl : (sortQubits qubits).length = qubits.length := (sortQubits_perm qubits).length_eq
  unfold qvIndexes superop_qubits
  have h1 : index0 (sortQubits qubits ++ (sortQubits qubits).map (· + n))
      (k * (2 ^ (n - qubits.length) + 1)) =
      index0 (sortQubits qubits) k + index0 (sortQubits qubits) k * 2 ^ n := by
    have h := index0_superop (sortQubits qubits) n k hsp hsb (by rw [hsl]; exact hk)
    rwa [hsl] at h
  have h2 : index0 (sortQubits qubits) k = placeBits (complQubits n qubits) k := by
    rw [index0_eq_placeBits_compl n (sortQubits qubits) k hsp hsb (by rw [hsl]; exact hk)]
    unfold complQubits
    congr 1
    apply List.filter_congr
    intro x _
    simp [(sortQubits_perm qubits).mem_iff]
  have h3 : placeBits (qubits ++ qubits.map (· + n)) i =
      placeBits qubits (i % 2 ^ qubits.length) +
        2 ^ n * placeBits qubits (i / 2 ^ qubits.length) := by
    rw [placeBits_append, placeBits_map_add]
    nth_rewrite 1 [← placeBits_mod qubits i]
    rfl
  rw [h1, h2, h3]
  ring

theorem rdm_helper_eq_partialTrace (s : DMState) (qubits : List ℕ)
    (hnd : qubits.Nodup) (hb : ∀ q ∈ qubits, q < s.cfg.nq) (i : ℕ) :
    rdm_helper s qubits (sortQubits qubits) i =
      partialTrace s qubits (i % 2 ^ qubits.length) (i / 2 ^ qubits.length) := by
  rw [rdm_helper_eq_sum]
  unfold partialTrace
  congr 1
  apply List.map_congr_left
  intro k hk
  rw [qvIndexes_eq s.cfg.nq qubits hnd hb k i (List.mem_range.mp hk)]

theorem eq_range_of_sorted_nodup (qs : List ℕ) (n : ℕ) (hnd : qs.Nodup)
    (hb : ∀ q ∈ qs, q < n) (hlen : qs.length = n) (hs : List.Sorted (· ≤ ·) qs) :
    qs = List.range n := by
  have hsub : qs.toFinset ⊆ Finset.range n :=
    fun x hx => Finset.mem_range.mpr (hb x (List.mem_toFinset.mp hx))
  have hcard : qs.toFinset.card = n := by rw [List.card_toFinset, hnd.dedup, hlen]
  have hfin : qs.toFinset = Finset.range n :=
    Finset.eq_of_subset_of_card_le hsub (by simp [hcard])
  have hmem : ∀ a, a ∈ qs ↔ a ∈ List.range n := by
    intro a
    rw [List.mem_range]
    constructor
    · exact hb a
    · intro ha
      have : a ∈ qs.toFinset := by rw [hfin]; exact Finset.mem_range.mpr ha
      simpa using this
  have hperm : qs.Perm (List.range n) :=
    (List.perm_ext_iff_of_nodup hnd (List.nodup_range n)).mpr hmem
  exact List.eq_of_perm_of_sorted hperm hs ((List.pairwise_lt_range n).imp le_of_lt)

/-- The mask accumulated by `apply_gate` over the out-of-chunk control
qubits (`mask |= 1 << (q - num_qubits)`). -/
def chunkMask (cfg : ChunkCfg) (op : Op) : ℕ :=
  (get_inout_ctrl_qubits op cfg.nq).2.foldl (fun m q => m ||| 2 ^ (q - cfg.nq)) 0

/-! ### Claim theorems -/

/-- C9: `sample_measure` samples shot outcomes without mutating the
density-matrix buffer: the state after the call equals the state before
it. -/
theorem sample_measure_does_not_mutate (s : DMState) (qubits : List ℕ) (shots : ℕ)
    (rng : RNG) : (sample_measure s qubits shots rng).2 = s :=
  rfl

/-- C8: `apply_matrix` routes a one-row matrix (already diagonal) to the
diagonal-unitary application path and applies every other matrix as a
dense unitary; the dispatcher sends `matrix` operations there. -/
theorem apply_matrix_diag_routing (cfg : ChunkCfg) (qubits : List ℕ) (mat : CMat) :
    (mat.rows = 1 →
      apply_matrix cfg qubits mat = apply_diagonal_unitary_matrix cfg qubits mat.data)
    ∧ (mat.rows ≠ 1 →
      apply_matrix cfg qubits mat = [.unitary qubits (.vec mat.data)])
    ∧ (∀ (s : DMState) (op : Op) (rng : RNG) (final_ops : Bool),
        s.cfg = cfg → op.otype = .matrix → op.qubits = qubits → op.mats.getD 0 default = mat →
        apply_op s op true rng final_ops = .ok (apply_matrix cfg qubits mat)) := by
  refine ⟨fun h => ?_, fun h => ?_, fun s op rng final_ops hc ht hq hm => ?_⟩
  · simp [apply_matrix, h]
  · simp [apply_matrix, h]
  · rcases op with ⟨ot, name2, qs2, ps2, ips2, sps2, ms2, mem2, regs2, st2⟩
    subst hc
    dsimp only at ht hq hm
    subst ht hq hm
    simp [apply_op]

theorem apply_matrix_diag_routing_witness :
    ((⟨1, 4, [CVal.lit 1 0, CVal.lit 2 0, CVal.lit 3 0, CVal.lit 4 0]⟩ : CMat).rows = 1)
    ∧ apply_matrix ⟨2, 2, false, 0⟩ [0, 1]
        ⟨1, 4, [CVal.lit 1 0, CVal.lit 2 0, CVal.lit 3 0, CVal.lit 4 0]⟩ =
      apply_diagonal_unitary_matrix ⟨2, 2, false, 0⟩ [0, 1]
        [CVal.lit 1 0, CVal.lit 2 0, CVal.lit 3 0, CVal.lit 4 0] :=
  ⟨by decide,
    (apply_matrix_diag_routing ⟨2, 2, false, 0⟩ [0, 1]
      ⟨1, 4, [CVal.lit 1 0, CVal.lit 2 0, CVal.lit 3 0, CVal.lit 4 0]⟩).1 (by decide)⟩

/-- C2: in chunked mode, a controlled gate with out-of-chunk control
qubits for which neither the row-mask condition nor the column-mask
condition holds is a complete no-op for this chunk: `apply_gate` returns
without error and without invoking any buffer primitive. -/
theorem apply_gate_inactive_chunk_noop (cfg : ChunkCfg) (op : Op)
    (hch : cfg.chunked = true)
    (hctrl : isCtrlGateName op.name = true)
    (hout : (get_inout_ctrl_qubits op cfg.nq).2.length ≠ 0)
    (hrow : ((cfg.chunkIndex &&& chunkMask cfg op) == chunkMask cfg op) = false)
    (hcol : (((cfg.chunkIndex >>> (cfg.numGlobal - cfg.nq)) &&& chunkMask cfg op) ==
      chunkMask cfg op) = false) :
    apply_gate cfg op = .ok [] := by
  unfold apply_gate
  rw [hch]
  simp only [if_true, hctrl]
  rw [if_pos (Nat.pos_of_ne_zero hout)]
  unfold chunkMask at hrow hcol
  simp [hrow, hcol]

theorem apply_gate_inactive_chunk_noop_witness :
    (⟨1, 2, false, 0⟩ : ChunkCfg).chunked = true
    ∧ apply_gate ⟨1, 2, false, 0⟩
        { otype := .gate, name := "cx", qubits := [0, 1], params := [],
          int_params := [], string_params := [], mats := [], memory := [],
          registers := [], save_type := .average } = .ok [] :=
  ⟨by decide,
    apply_gate_inactive_chunk_noop ⟨1, 2, false, 0⟩
      { otype := .gate, name := "cx", qubits := [0, 1], params := [],
        int_params := [], string_params := [], mats := [], memory := [],
        registers := [], save_type := .average }
      (by decide) (by decide) (by decide) (by decide) (by decide)⟩

/-- C6: an operation whose kind is outside the dispatcher's handled set
makes `apply_op` fail (once the conditional gate passes) with the
invalid-instruction error carrying the operation's name; the error return
carries no buffer operations, so no handler runs. -/
theorem apply_op_unsupported_instruction (s : DMState) (op : Op) (rng : RNG)
    (final_ops : Bool) (h : op.otype ∉ supportedOpTypes) :
    apply_op s op true rng final_ops = .error (.unsupported_instruction op.name) := by
  rcases op with ⟨ot, name, qubits, params, int_params, string_params, mats,
    memory, registers, save_type⟩
  cases ot <;> simp_all [apply_op, supportedOpTypes]

theorem apply_op_unsupported_instruction_witness :
    ((OpType.jump ∉ supportedOpTypes)
    ∧ apply_op ⟨⟨1, 1, false, 0⟩, fun _ => 0⟩
        { otype := .jump, name := "jump", qubits := [], params := [],
          int_params := [], string_params := [], mats := [], memory := [],
          registers := [], save_type := .average }
        true ⟨fun _ => 0, fun _ => 0⟩ false =
      .error (.unsupported_instruction "jump")) :=
  ⟨by decide,
    apply_op_unsupported_instruction ⟨⟨1, 1, false, 0⟩, fun _ => 0⟩
      { otype := .jump, name := "jump", qubits := [], params := [],
        int_params := [], string_params := [], mats := [], memory := [],
        registers := [], save_type := .average }
      ⟨fun _ => 0, fun _ => 0⟩ false (by decide)⟩

/-- C1 counterexample: at `meas_prob = 0` the function proceeds normally:
it reports no error and applies the renormalizing diagonal whose entry at
the measured state is `1 / sqrt 0`, contradicting the claim that a
degenerate probability is surfaced as an error. -/
theorem measure_reset_update_zero_prob_proceeds :
    measure_reset_update ⟨2, 2, false, 0⟩ [0] 0 0 0 =
      .ok [.diagUnitary [0] [CVal.invSqrt 0, CVal.lit 0 0]]
    ∧ ¬ ∃ e, measure_reset_update ⟨2, 2, false, 0⟩ [0] 0 0 0 = .error e := by
  refine ⟨by decide, ?_⟩
  rintro ⟨e, he⟩
  rw [show measure_reset_update ⟨2, 2, false, 0⟩ [0] 0 0 0 =
    .ok [.diagUnitary [0] [CVal.invSqrt 0, CVal.lit 0 0]] from by decide] at he
  exact absurd he (by simp)

/-- C1 (amended): `measure_reset_update` performs no check on
`meas_prob` whatsoever: for every input, including a zero probability, it
completes without reporting any error (the renormalizing entry
`1/sqrt(meas_prob)` is built unconditionally). -/
theorem measure_reset_update_never_reports (cfg : ChunkCfg) (qubits : List ℕ)
    (final_state meas_state : ℕ) (meas_prob : ℚ) :
    ∃ t, measure_reset_update cfg qubits final_state meas_state meas_prob =
      Except.ok t := by
  unfold measure_reset_update
  split <;> split <;> exact ⟨_, rfl⟩

/-- C5: `apply_save_state` raises the not-all-qubits error exactly when
the operation's qubit list (a valid, duplicate-free list of in-range
qubits) fails to cover the whole register, and on the error path it
emits nothing; otherwise it emits the single save with the renamed key
and the move-vs-copy flag. -/
theorem apply_save_state_full_register (s : DMState) (op : Op) (last_op : Bool)
    (hnd : op.qubits.Nodup) (hb : ∀ q ∈ op.qubits, q < s.cfg.nq) :
    (¬ coversRegister op.qubits s.cfg.nq →
      apply_save_state s op last_op = .error (.save_not_full_state op.name))
    ∧ (coversRegister op.qubits s.cfg.nq →
      apply_save_state s op last_op = .ok [.saveStateData (save_state_key op) last_op]) := by
  have hiff : op.qubits.length = s.cfg.nq ↔ coversRegister op.qubits s.cfg.nq := by
    constructor
    · intro hlen q hq
      have hsub : op.qubits.toFinset ⊆ Finset.range s.cfg.nq := by
        intro x hx
        simp only [List.mem_toFinset] at hx
        exact Finset.mem_range.mpr (hb x hx)
      have hcard : op.qubits.toFinset.card = s.cfg.nq := by
        rw [List.card_toFinset, hnd.dedup, hlen]
      have : op.qubits.toFinset = Finset.range s.cfg.nq :=
        Finset.eq_of_subset_of_card_le hsub (by simp [hcard])
      have : q ∈ op.qubits.toFinset := by
        rw [this]; exact Finset.mem_range.mpr hq
      simpa using this
    · intro hcov
      have hsub : Finset.range s.cfg.nq ⊆ op.qubits.toFinset := by
        intro x hx
        simp only [List.mem_toFinset]
        exact hcov x (Finset.mem_range.mp hx)
      have hsub2 : op.qubits.toFinset ⊆ Finset.range s.cfg.nq := by
        intro x hx
        simp only [List.mem_toFinset] at hx
        exact Finset.mem_range.mpr (hb x hx)
      have heq : op.qubits.toFinset = Finset.range s.cfg.nq :=
        Finset.Subset.antisymm hsub2 hsub
      have := congrArg Finset.card heq
      rwa [List.card_toFinset, hnd.dedup, Finset.card_range] at this
  constructor
  · intro hnc
    have hne : op.qubits.length ≠ s.cfg.nq := fun h => hnc (hiff.mp h)
    simp [apply_save_state, hne]
  · intro hc
    have he : op.qubits.length = s.cfg.nq := hiff.mpr hc
    simp [apply_save_state, he, save_state_key]

theorem getD_set_replicate (dim i m : ℕ) (v z : CVal) (hi : i < dim) :
    ((List.replicate dim z).set m v).getD i z = if i = m then v else z := by
  have hlen : i < ((List.replicate dim z).set m v).length := by simp [hi]
  rw [List.getD_eq_getElem _ _ hlen]
  by_cases h : i = m
  · subst h
    rw [if_pos rfl, List.getElem_set_self]
  · rw [if_neg h, List.getElem_set_ne (fun hh => h hh.symm), List.getElem_replicate]

theorem set_diag_step_getD (start : List CVal) (j f m dim idx : ℕ)
    (hidx : idx < start.length) :
    ((if j ≠ f ∧ j ≠ m then start.set (j * dim + j) (CVal.lit 1 0) else start).getD idx
      (CVal.lit 0 0)) =
    (if j ≠ f ∧ j ≠ m ∧ idx = j * dim + j then CVal.lit 1 0
     else start.getD idx (CVal.lit 0 0)) := by
  by_cases hfm : j ≠ f ∧ j ≠ m
  · rw [if_pos hfm]
    by_cases he : idx = j * dim + j
    · rw [if_pos ⟨hfm.1, hfm.2, he⟩]
      subst he
      rw [List.getD_eq_getElem _ _ (by simpa using hidx), List.getElem_set_self]
    · rw [if_neg (fun hh => he hh.2.2)]
      rw [List.getD_eq_getElem _ _ (by simpa using hidx),
        List.getElem_set_ne (fun hh => he hh.symm), ← List.getD_eq_getElem _ _ hidx]
  · rw [if_neg hfm, if_neg (fun hh => hfm ⟨hh.1, hh.2.1⟩)]

theorem foldl_set_diag_getD (f m dim : ℕ) (js : List ℕ) :
    ∀ start : List CVal, (∀ j ∈ js, j * dim + j < start.length) →
    ∀ idx, idx < start.length →
    ((js.foldl (fun pl j =>
        if j ≠ f ∧ j ≠ m then pl.set (j * dim + j) (CVal.lit 1 0) else pl) start).getD idx
      (CVal.lit 0 0)) =
    (if ∃ j ∈ js, j ≠ f ∧ j ≠ m ∧ idx = j * dim + j then CVal.lit 1 0
     else start.getD idx (CVal.lit 0 0)) := by
  induction js with
  | nil => intro start _ idx _; simp
  | cons j js ih =>
    intro start hlen idx hidx
    simp only [List.foldl_cons]
    have hlen' :
        (if j ≠ f ∧ j ≠ m then start.set (j * dim + j) (CVal.lit 1 0) else start).length =
          start.length := by
      split <;> simp
    rw [ih _ (fun j' hj' => by rw [hlen']; exact hlen j' (List.mem_cons_of_mem _ hj'))
        idx (by rw [hlen']; exact hidx)]
    rw [set_diag_step_getD start j f m dim idx hidx]
    have hiff : (∃ j' ∈ j :: js, j' ≠ f ∧ j' ≠ m ∧ idx = j' * dim + j') ↔
        ((j ≠ f ∧ j ≠ m ∧ idx = j * dim + j) ∨
          ∃ j' ∈ js, j' ≠ f ∧ j' ≠ m ∧ idx = j' * dim + j') := by
      constructor
      · rintro ⟨j', hm', hc'⟩
        rcases List.mem_cons.mp hm' with h | h
        · subst h; exact Or.inl hc'
        · exact Or.inr ⟨j', h, hc'⟩
      · rintro (hc | ⟨j', hmem, hc'⟩)
        · exact ⟨j, List.mem_cons_self j js, hc⟩
        · exact ⟨j', List.mem_cons_of_mem _ hmem, hc'⟩
    simp only [hiff]
    by_cases hex : ∃ j' ∈ js, j' ≠ f ∧ j' ≠ m ∧ idx = j' * dim + j' <;>
      by_cases hj : j ≠ f ∧ j ≠ m ∧ idx = j * dim + j <;>
      simp [hex, hj]

theorem getElem_set_of_eq (l : List CVal) (pos idx : ℕ) (v : CVal)
    (h : idx < (l.set pos v).length) (he : idx = pos) : (l.set pos v)[idx] = v := by
  subst he
  exact List.getElem_set_self h

theorem mru_perm_entry (dim f m r c : ℕ) (hf : f < dim) (hm : m < dim) (hfm : f ≠ m)
    (hr : r < dim) (hc : c < dim) :
    (mru_perm dim f m).getD (c * dim + r) (CVal.lit 0 0) = permSwapSpec f m r c := by
  have hd : 0 < dim := by omega
  have idx_lt : ∀ a b : ℕ, a < dim → b < dim → a * dim + b < dim * dim := by
    intro a b ha hb
    have h1 : (a + 1) * dim ≤ dim * dim := Nat.mul_le_mul_right _ ha
    rw [Nat.add_mul, one_mul] at h1
    omega
  have idx_inj : ∀ a b a' b' : ℕ, b < dim → b' < dim →
      (a * dim + b = a' * dim + b' ↔ a = a' ∧ b = b') := by
    intro a b a' b' hb hb'
    constructor
    · intro h
      have d1 : (a * dim + b) / dim = a := by
        rw [mul_comm, Nat.mul_add_div hd, Nat.div_eq_of_lt hb, Nat.add_zero]
      have d2 : (a' * dim + b') / dim = a' := by
        rw [mul_comm, Nat.mul_add_div hd, Nat.div_eq_of_lt hb', Nat.add_zero]
      have haa : a = a' := by
        calc a = (a * dim + b) / dim := d1.symm
          _ = (a' * dim + b') / dim := by rw [h]
          _ = a' := d2
      subst haa
      exact ⟨rfl, by omega⟩
    · rintro ⟨rfl, rfl⟩; rfl
  unfold mru_perm
  rw [foldl_set_diag_getD f m dim (List.range dim) _
      (fun j hj => by
        simp only [List.length_set, List.length_replicate]
        exact idx_lt j j (List.mem_range.mp hj) (List.mem_range.mp hj))
      (c * dim + r)
      (by simp only [List.length_set, List.length_replicate]; exact idx_lt c r hc hr)]
  have hE : (∃ j ∈ List.range dim, j ≠ f ∧ j ≠ m ∧ c * dim + r = j * dim + j) ↔
      (r = c ∧ r ≠ f ∧ r ≠ m) := by
    constructor
    · rintro ⟨j, hjr, h1, h2, h3⟩
      have := (idx_inj c r j j hr (List.mem_range.mp hjr)).mp h3
      obtain ⟨rfl, rfl⟩ := this
      exact ⟨rfl, h1, h2⟩
    · rintro ⟨hrc, h1, h2⟩
      exact ⟨r, List.mem_range.mpr hr, h1, h2, by rw [hrc]⟩
  have hstart :
      (((List.replicate (dim * dim) (CVal.lit 0 0)).set (f * dim + m)
          (CVal.lit 1 0)).set (m * dim + f) (CVal.lit 1 0)).getD (c * dim + r)
        (CVal.lit 0 0) =
      (if c * dim + r = m * dim + f then CVal.lit 1 0
       else if c * dim + r = f * dim + m then CVal.lit 1 0 else CVal.lit 0 0) := by
    have hlen2 : c * dim + r <
        (((List.replicate (dim * dim) (CVal.lit 0 0)).set (f * dim + m)
          (CVal.lit 1 0)).set (m * dim + f) (CVal.lit 1 0)).length := by
      simp only [List.length_set, List.length_replicate]
      exact idx_lt c r hc hr
    rw [List.getD_eq_getElem _ _ hlen2]
    by_cases h1 : c * dim + r = m * dim + f
    · rw [if_pos h1]
      exact getElem_set_of_eq _ _ _ _ _ h1
    · rw [if_neg h1, List.getElem_set_ne (fun hh => h1 hh.symm)]
      by_cases h2 : c * dim + r = f * dim + m
      · rw [if_pos h2]
        exact getElem_set_of_eq _ _ _ _ _ h2
      · rw [if_neg h2, List.getElem_set_ne (fun hh => h2 hh.symm),
          List.getElem_replicate]
  rw [hstart]
  have e1 : (c * dim + r = m * dim + f) ↔ (c = m ∧ r = f) := idx_inj c r m f hr hf
  have e2 : (c * dim + r = f * dim + m) ↔ (c = f ∧ r = m) := idx_inj c r f m hr hm
  simp only [hE, e1, e2, permSwapSpec]
  by_cases hrf : r = f
  · subst hrf
    by_cases hcm : c = m <;> simp [hcm, hfm]
  · by_cases hrm : r = m
    · subst hrm
      by_cases hcf : c = f <;> simp [hcf, hrf, Ne.symm hfm, fun h : r = f => hrf h]
    · by_cases hrc : r = c
      · subst hrc
        simp [hrf, hrm]
      · simp [hrf, hrm, hrc]

/-- C3: `measure_reset_update` applies (through the diagonal path) the
size-`2^k` diagonal projector whose only nonzero entry is
`1/sqrt(meas_prob)` at `meas_state`; then, exactly when the desired final
state differs from the sampled one, it applies an `X` flip for one qubit
or, for several qubits, the dense permutation matrix that swaps basis
states `final_state` and `meas_state` and is the identity elsewhere. -/
theorem measure_reset_update_projector (cfg : ChunkCfg) (qubits : List ℕ)
    (final_state meas_state : ℕ) (meas_prob : ℚ)
    (hms : meas_state < 2 ^ qubits.length) (hfs : final_state < 2 ^ qubits.length) :
    (measure_reset_update cfg qubits final_state meas_state meas_prob =
      .ok (apply_diagonal_unitary_matrix cfg qubits
            ((List.replicate (2 ^ qubits.length) (CVal.lit 0 0)).set meas_state
              (CVal.invSqrt meas_prob))
          ++ (if final_state = meas_state then []
              else if qubits.length = 1 then [.xGate (qubits.getD 0 0)]
              else [.unitary qubits
                (.vec (mru_perm (2 ^ qubits.length) final_state meas_state))])))
    ∧ (∀ i, i < 2 ^ qubits.length →
        ((List.replicate (2 ^ qubits.length) (CVal.lit 0 0)).set meas_state
            (CVal.invSqrt meas_prob)).getD i (CVal.lit 0 0) =
          if i = meas_state then CVal.invSqrt meas_prob else CVal.lit 0 0)
    ∧ (final_state ≠ meas_state →
        ∀ r, r < 2 ^ qubits.length → ∀ c, c < 2 ^ qubits.length →
          (mru_perm (2 ^ qubits.length) final_state meas_state).getD
              (c * 2 ^ qubits.length + r) (CVal.lit 0 0) =
            permSwapSpec final_state meas_state r c) := by
  refine ⟨?_, fun i hi => getD_set_replicate _ i meas_state _ _ hi,
    fun hfm r hr c hc => mru_perm_entry _ _ _ _ _ hfs hms hfm hr hc⟩
  unfold measure_reset_update
  by_cases hl : qubits.length = 1
  · by_cases hfm : final_state = meas_state <;> simp [hl, hfm]
  · by_cases hfm : final_state = meas_state <;> simp [hl, hfm]

theorem measure_reset_update_projector_witness :
    (3 < 2 ^ ([0, 1] : List ℕ).length) ∧
    measure_reset_update ⟨2, 2, false, 0⟩ [0, 1] 0 3 1 =
      .ok (apply_diagonal_unitary_matrix ⟨2, 2, false, 0⟩ [0, 1]
            ((List.replicate (2 ^ ([0, 1] : List ℕ).length) (CVal.lit 0 0)).set 3
              (CVal.invSqrt 1))
          ++ [.unitary [0, 1] (.vec (mru_perm (2 ^ ([0, 1] : List ℕ).length) 0 3))]) :=
  ⟨by decide, by
    have h := (measure_reset_update_projector ⟨2, 2, false, 0⟩ [0, 1] 0 3 1
      (by decide) (by decide)).1
    simpa using h⟩

/-- C4: `reduced_density_matrix` returns (a) the 1×1 trace for the empty
qubit list, (b) the full matrix — moved exactly when the caller's final
flag is set, copied otherwise — when the (valid) list is all qubits in
sorted order, and (c) in every other case the exact partial trace over
the complement, accumulated block-wise: the block at complement index 0
initializes each entry and all `2^(N-k) - 1` later blocks are added. -/
theorem reduced_density_matrix_branches (s : DMState) (qubits : List ℕ) (last_op : Bool)
    (hnd : qubits.Nodup) (hb : ∀ q ∈ qubits, q < s.cfg.nq) :
    (qubits = [] →
      reduced_density_matrix s qubits last_op = (⟨1, fun _ => bufferTrace s⟩, .traced))
    ∧ (0 < s.cfg.nq → qubits = List.range s.cfg.nq →
      reduced_density_matrix s qubits last_op =
        if last_op then (move_to_matrix s, .moved) else (copy_to_matrix s, .copied))
    ∧ (qubits ≠ [] → qubits ≠ List.range s.cfg.nq →
      (reduced_density_matrix s qubits last_op).2 = .reduced ∧
      ∀ i, i < 4 ^ qubits.length →
        (reduced_density_matrix s qubits last_op).1.entry i =
          partialTrace s qubits (i % 2 ^ qubits.length) (i / 2 ^ qubits.length)) := by
  refine ⟨fun he => by simp [reduced_density_matrix, he], fun hn he => ?_, fun hne hnr => ?_⟩
  · subst he
    have hs : sortQubits (List.range s.cfg.nq) = List.range s.cfg.nq :=
      List.eq_of_perm_of_sorted (sortQubits_perm _) (sortQubits_sorted _)
        ((List.pairwise_lt_range _).imp le_of_lt)
    have hnil : List.range s.cfg.nq ≠ [] := by
      simp only [ne_eq, List.range_eq_nil]
      omega
    have hempty : (List.range s.cfg.nq).isEmpty = false := by
      cases hc : List.range s.cfg.nq with
      | nil => exact absurd hc hnil
      | cons a l => rfl
    unfold reduced_density_matrix
    rw [hempty]
    simp [hs, List.length_range]
  · have hempty : qubits.isEmpty = false := by
      cases qubits with
      | nil => exact absurd rfl hne
      | cons a l => rfl
    have hcond : ¬(qubits.length = s.cfg.nq ∧ qubits = sortQubits qubits) := by
      rintro ⟨hlen, hsorted⟩
      refine hnr (eq_range_of_sorted_nodup qubits s.cfg.nq hnd hb hlen ?_)
      rw [hsorted]
      exact sortQubits_sorted qubits
    constructor
    · unfold reduced_density_matrix
      rw [hempty]
      simp [hcond]
    · intro i _
      unfold reduced_density_matrix
      rw [hempty]
      simp only [Bool.false_eq_true, if_false, hcond, if_neg hcond]
      exact rdm_helper_eq_partialTrace s qubits hnd hb i

theorem reduced_density_matrix_branches_witness :
    ([0] : List ℕ).Nodup ∧ (∀ q ∈ ([0] : List ℕ), q < 2) ∧
    (reduced_density_matrix ⟨⟨2, 2, false, 0⟩, fun _ => 0⟩ [0] false).2 = .reduced :=
  ⟨by decide, by decide,
    ((reduced_density_matrix_branches ⟨⟨2, 2, false, 0⟩, fun _ => 0⟩ [0] false
      (by decide) (by decide)).2.2 (by decide) (by decide)).1⟩

/-- C7: `apply_pauli` applies the Pauli string as the superoperator
`(-1)^(#Y) · P⊗P` on the doubled (ket and bra) index space: it invokes
the buffer primitive on the doubled qubits with the doubled string and
the sign of the odd `Y` count; and the operator so applied for the
string `"XY"` on two qubits equals the unitary channel of `x` on qubit 0
followed by `y` on qubit 1 (entrywise on the 16-dimensional doubled
space). -/
theorem apply_pauli_superop_sign :
    (∀ (n : ℕ) (qubits : List ℕ) (pauli : String),
      apply_pauli n qubits pauli =
        [.pauliOp (superop_qubits n qubits) (pauli ++ pauli)
          (if pauli.toList.count 'Y' % 2 = 1 then .lit (-1) 0 else .lit 1 0)])
    ∧ (∀ r, r < 16 → ∀ c, c < 16 →
      scaleMat ⟨-1, 0⟩ (pauliStrMat 4 [0, 1, 2, 3] ("XY" ++ "XY").toList) r c =
        applyChannelMat 2
          (matMulN 4 (pauliStrMat 2 [1] ['Y']) (pauliStrMat 2 [0] ['X'])) r c) := by
  refine ⟨fun n qubits pauli => rfl, ?_⟩
  decide

theorem apply_pauli_superop_sign_witness :
    scaleMat ⟨-1, 0⟩ (pauliStrMat 4 [0, 1, 2, 3] ("XY" ++ "XY").toList) 1 2 =
      applyChannelMat 2
        (matMulN 4 (pauliStrMat 2 [1] ['Y']) (pauliStrMat 2 [0] ['X'])) 1 2 :=
  apply_pauli_superop_sign.2 1 (by decide) 2 (by decide)

theorem int2reg_succ (m k : ℕ) :
    int2reg m 2 (k + 1) = m % 2 :: int2reg (m / 2) 2 k := by
  unfold int2reg
  rw [List.range_succ_eq_map, List.map_cons, List.map_map]
  simp only [pow_zero, Nat.div_one]
  congr 1
  apply List.map_congr_left
  intro j _
  simp only [Function.comp_apply]
  rw [Nat.div_div_eq_div_mul]
  congr 2
  rw [pow_succ, mul_comm]

theorem ofDigits_int2reg (k : ℕ) : ∀ m, m < 2 ^ k →
    Nat.ofDigits 2 (int2reg m 2 k) = m := by
  induction k with
  | zero =>
    intro m hm
    interval_cases m
    rfl
  | succ k ih =>
    intro m hm
    have h2 : (2 : ℕ) ^ (k + 1) = 2 * 2 ^ k := by ring
    rw [int2reg_succ, Nat.ofDigits_cons, ih (m / 2) (by omega)]
    omega

/-- C10: `apply_measure` hands the sampled outcome to
`measure_reset_update` as both `final_state` and `meas_state`, so the
collapse trace is exactly the renormalizing projector onto that outcome
(no flip follows), and the bits stored in the classical memory and
register arrays are precisely the base-2 digits of the same outcome. -/
theorem apply_measure_collapse_matches_store (s : DMState)
    (qubits cmemory cregister : List ℕ) (rng : RNG) (m : ℕ) (p : ℚ)
    (hm : m = rng.randInt (probabilities s qubits))
    (hp : p = (probabilities s qubits).getD m 0)
    (hlt : m < 2 ^ qubits.length) :
    apply_measure s qubits cmemory cregister rng =
      .ok (apply_diagonal_unitary_matrix s.cfg qubits
            ((List.replicate (2 ^ qubits.length) (CVal.lit 0 0)).set m (CVal.invSqrt p))
          ++ [.storeMeasure (int2reg m 2 qubits.length) cmemory cregister])
    ∧ Nat.ofDigits 2 (int2reg m 2 qubits.length) = m := by
  refine ⟨?_, ofDigits_int2reg _ _ hlt⟩
  subst hm hp
  unfold apply_measure sample_measure_with_prob measure_probs measure_reset_update
  by_cases hl : qubits.length = 1
  · simp [hl]
    rfl
  · simp [hl]
    rfl

theorem apply_measure_collapse_matches_store_witness :
    ((fun _ => 0 : List ℚ → ℕ)
        (probabilities ⟨⟨2, 2, false, 0⟩, fun _ => 0⟩ [0, 1]) < 2 ^ ([0, 1] : List ℕ).length)
    ∧ Nat.ofDigits 2 (int2reg (RNG.randInt ⟨fun _ => 0, fun _ => 0⟩
        (probabilities ⟨⟨2, 2, false, 0⟩, fun _ => 0⟩ [0, 1])) 2 ([0, 1] : List ℕ).length) =
      RNG.randInt ⟨fun _ => 0, fun _ => 0⟩
        (probabilities ⟨⟨2, 2, false, 0⟩, fun _ => 0⟩ [0, 1]) :=
  ⟨by decide,
    (apply_measure_collapse_matches_store ⟨⟨2, 2, false, 0⟩, fun _ => 0⟩ [0, 1] [] []
      ⟨fun _ => 0, fun _ => 0⟩ _ _ rfl rfl (by decide)).2⟩

theorem apply_save_state_full_register_witness :
    (([0] : List ℕ).Nodup ∧ (∀ q ∈ ([0] : List ℕ), q < 2) ∧
      ¬ coversRegister [0] 2)
    ∧ apply_save_state ⟨⟨2, 2, false, 0⟩, fun _ => 0⟩
        { otype := .save_state, name := "save_state", qubits := [0], params := [],
          int_params := [], string_params := ["k"], mats := [], memory := [],
          registers := [], save_type := .average } true =
      .error (.save_not_full_state "save_state") :=
  ⟨⟨by decide, by decide, by decide⟩,
    (apply_save_state_full_register ⟨⟨2, 2, false, 0⟩, fun _ => 0⟩
      { otype := .save_state, name := "save_state", qubits := [0], params := [],
        int_params := [], string_params := ["k"], mats := [], memory := [],
        registers := [], save_type := .average } true
      (by decide) (by decide)).1 (by decide)⟩

end DMV
